import Mathlib

/-!
Verification of the pnglevel PNG recompressor (package pnglevel).

This file shallowly embeds the streaming transcoder of src/pnglevel.go
(`Repack` and the `repacker` methods) over byte lists, together with the
wire-format data model (chunks, containers) it manipulates.  The zlib
inflate/deflate codec is an external collaborator of the program
("treated as a black-box stream transform with a selectable level
parameter"); it is modelled by an abstract `Codec` structure whose fields
stand for the decoded stream, the bytes produced by write+Flush cycles,
and the bytes produced by the final Close.

Bytes are natural numbers; genuine byte streams have all entries < 256,
but no definition below depends on that bound.  Machine arithmetic that
matters (the uint32 length field, the 32-bit CRC) is made explicit with
% 2^32 style masking inside `be32` and the CRC fold.
-/

namespace Pnglevel

/-- A byte stream, each entry intended to be < 256. -/
abbrev Bytes := List Nat

/-- maxChunkLen = 0x7fffffff (pnglevel.go line 17). -/
def maxChunkLen : Nat := 0x7fffffff

/-- bufSize = (1 << 16) - 10 (pnglevel.go line 20). -/
def bufSize : Nat := (1 <<< 16) - 10

/-- The fixed 8-byte PNG signature "\x89PNG\r\n\x1a\n" (pnglevel.go line 16). -/
def pngSigBytes : Bytes := [0x89, 0x50, 0x4E, 0x47, 0x0D, 0x0A, 0x1A, 0x0A]

/-- The 4 ASCII bytes of "IHDR". -/
def ihdrTag : Bytes := [0x49, 0x48, 0x44, 0x52]

/-- The 4 ASCII bytes of "IDAT". -/
def idatTag : Bytes := [0x49, 0x44, 0x41, 0x54]

/-- The 4 ASCII bytes of "IEND". -/
def iendTag : Bytes := [0x49, 0x45, 0x4E, 0x44]

/-! ## The checksum engine: hash/crc32 with the IEEE polynomial -/

/-- The reflected IEEE CRC-32 polynomial 0xEDB88320 used by crc32.NewIEEE. -/
def crcPoly : Nat := 0xEDB88320

/-- One bit step of the reflected CRC-32: shift right, conditionally xor
the polynomial.  All values stay < 2^32. -/
def crcStep (a : Nat) : Nat := if a % 2 = 1 then (a / 2) ^^^ crcPoly else a / 2

/-- Absorb one byte into the CRC-32 register (8 bit steps). -/
def crcUpd (c b : Nat) : Nat :=
  (List.range 8).foldl (fun a _ => crcStep a) (c ^^^ (b % 256))

/-- crc32.ChecksumIEEE of a byte list: fold from the all-ones register and
complement at the end.  This is `Sum32` of a crc32.NewIEEE hash that has
absorbed exactly `l`. -/
def crc32 (l : Bytes) : Nat := (l.foldl crcUpd 0xFFFFFFFF) ^^^ 0xFFFFFFFF

/-! ## Big-endian 32-bit integers (encoding/binary BigEndian) -/

/-- binary.BigEndian.PutUint32: the 4 big-endian bytes of `n` (mod 2^32;
`uint32(...)` truncation is exactly the `% 256` masking of each byte). -/
def be32 (n : Nat) : Bytes := [n / 2 ^ 24 % 256, n / 2 ^ 16 % 256, n / 2 ^ 8 % 256, n % 256]

/-- binary.BigEndian.Uint32 of a 4-byte list. -/
def beVal (l : Bytes) : Nat := l.foldl (fun a b => a * 256 + b) 0

/-! ## The wire-format data model -/

/-- A PNG chunk as a value: type tag, payload, and the stored 32-bit CRC
field (which may or may not equal the CRC of tag++payload). -/
structure Chunk where
  kind : Bytes
  data : Bytes
  crc : Nat
deriving DecidableEq, Repr

/-- Serialization of a chunk: 4-byte big-endian length, 4-byte tag, data,
4-byte big-endian CRC field. -/
def chunkBytes (c : Chunk) : Bytes :=
  be32 c.data.length ++ c.kind ++ c.data ++ be32 c.crc

/-- Serialization of a chunk sequence. -/
def chunksBytes (cs : List Chunk) : Bytes := (cs.map chunkBytes).flatten

/-- A well-formed chunk: 4-byte tag, length within the 2^31-1 bound, and a
CRC field that really is the IEEE CRC-32 of tag++data. -/
def chunkOk (c : Chunk) : Prop :=
  c.kind.length = 4 ∧ c.data.length ≤ maxChunkLen ∧ c.crc = crc32 (c.kind ++ c.data)

instance (c : Chunk) : Decidable (chunkOk c) := by unfold chunkOk; infer_instance

/-! ## Errors

Each constructor corresponds to one of the distinct error returns of
pnglevel.go; `eofSig` models the io.EOF sentinel (clean end of source),
`truncated` models io.ErrUnexpectedEOF (short read), and `fuelOut` is the
recursion bound of the embedding (never reached with adequate fuel). -/

inductive Err where
  | eofSig
  | truncated
  | notPng
  | missingIHDR
  | badIHDRLen
  | unsupportedCompression
  | chunkTooBig
  | idatTooBig
  | invalidChecksum
  | invalidIdatChecksum
  | wrongIDATOrder
  | corruptStream
  | fuelOut
deriving DecidableEq, Repr

/-- The chunk-too-large family: "pnglevel: chunk is too big" (container
walker) and "pnglevel: IDAT chunk is too big" (image-stream merger). -/
def Err.isTooLarge : Err → Bool
  | .chunkTooBig => true
  | .idatTooBig => true
  | _ => false

/-! ## The repacker state and step monad

The repacker of pnglevel.go owns an input reader, an output writer, one
crc32 hash and the haveIDAT flag.  The hash object is modelled by the
list of bytes written into it since the last Reset (its Sum32 is `crc32`
of that list).  Errors abort the whole operation; the error value carries
the bytes already written to the output writer at that point, since Go's
Repack has already emitted them even when it returns an error. -/

structure St where
  inp : Bytes
  out : Bytes
  crcBuf : Bytes
  haveIDAT : Bool
deriving DecidableEq, Repr

/-- Computation that can fail, returning the output written so far and the
error (mirroring that Go's writer keeps what was written before failure). -/
abbrev M (α : Type) := Except (Bytes × Err) α

instance {ε α : Type} [DecidableEq ε] [DecidableEq α] : DecidableEq (Except ε α) := fun a b =>
  match a, b with
  | .error e, .error e' =>
    if h : e = e' then isTrue (congrArg Except.error h)
    else isFalse (fun hc => h (Except.error.inj hc))
  | .ok x, .ok y =>
    if h : x = y then isTrue (congrArg Except.ok h)
    else isFalse (fun hc => h (Except.ok.inj hc))
  | .error _, .ok _ => isFalse Except.noConfusion
  | .ok _, .error _ => isFalse Except.noConfusion

/-- io.ReadFull(p.r, p.tmp[:n]): take exactly `n` bytes from the source.
io.EOF when the source is empty, io.ErrUnexpectedEOF on a short read. -/
def readN (n : Nat) (st : St) : M (Bytes × St) :=
  if st.inp.length < n then
    .error (st.out, if st.inp.isEmpty then .eofSig else .truncated)
  else
    .ok (st.inp.take n, { st with inp := st.inp.drop n })

/-- repacker.chunk (pnglevel.go lines 138-151): read an 8-byte chunk
header, reject lengths above 2^31-1, reset the crc and absorb the 4 tag
bytes.  Returns the length, the tag, and the raw 8 header bytes (Go keeps
them in p.tmp[:8] for later verbatim output). -/
def chunkHdr (st : St) : M (Nat × Bytes × Bytes × St) := do
  let (tmp8, st) ← readN 8 st
  let ulen := beVal (tmp8.take 4)
  if maxChunkLen < ulen then throw (st.out, .chunkTooBig)
  let kind := tmp8.drop 4
  pure (ulen, kind, tmp8, { st with crcBuf := kind })

/-- repacker.verifyCrc (pnglevel.go lines 177-185): read the stored 4-byte
CRC field and compare with Sum32 of the accumulated bytes.  Returns the 4
raw bytes read (p.tmp[:4]) so the caller can copy them to the output. -/
def verifyCrcM (st : St) : M (Bytes × St) := do
  let (c4, st) ← readN 4 st
  if beVal c4 ≠ crc32 st.crcBuf then throw (st.out, .invalidChecksum)
  pure (c4, st)

/-- repacker.handleAnyChunk (pnglevel.go lines 153-175): write the 8
header bytes, copy the length-bounded payload to the output while
absorbing it into the crc (io.CopyN to a MultiWriter), then verify the
trailing CRC and copy its 4 bytes.  Note the header and payload are
written to the output BEFORE the CRC field is read and checked.
(On a short payload read Go has already written the partial payload; the
model keeps the output at the pre-payload point in that case, which no
theorem below depends on.) -/
def handleAnyChunk (tmp8 : Bytes) (length : Nat) (st : St) : M St := do
  let st := { st with out := st.out ++ tmp8 }
  let (data, st) ← readN length st
  let st := { st with out := st.out ++ data, crcBuf := st.crcBuf ++ data }
  let (c4, st) ← verifyCrcM st
  pure { st with out := st.out ++ c4 }

/-- repacker.header (pnglevel.go lines 92-136): verify and copy the
8-byte signature, require the first chunk to be IHDR with length 13,
require the compression-method byte (payload offset 10) to be zero, copy
the header chunk verbatim, verify its CRC. -/
def header (st : St) : M St := do
  let (sig, st) ← readN 8 st
  if sig ≠ pngSigBytes then throw (st.out, .notPng)
  let st := { st with out := st.out ++ sig }
  let (len, kind, tmp8, st) ← chunkHdr st
  if kind ≠ ihdrTag then throw (st.out, .missingIHDR)
  if len ≠ 13 then throw (st.out, .badIHDRLen)
  let st := { st with out := st.out ++ tmp8 }
  let (payload, st) ← readN 13 st
  if payload.getD 10 0 ≠ 0 then throw (st.out, .unsupportedCompression)
  let st := { st with crcBuf := st.crcBuf ++ payload, out := st.out ++ payload }
  let (c4, st) ← verifyCrcM st
  pure { st with out := st.out ++ c4 }

/-! ## The codec adapter: the zlib black box

compress/zlib is external to the package.  `inflate` is the decoded
content of a complete logical stream (`none` on malformed data, including
a stream that does not occupy exactly the bytes given).  The stateful
zlib writer at a given level is described by `flushStream level w`: the
compressed bytes that have been emitted to its destination after writing
`w` and calling Flush, and `closeTail level w`: the extra bytes Close
then appends (final block + adler32 in real zlib). -/

structure Codec where
  inflate : Bytes → Option Bytes
  flushStream : Nat → Bytes → Bytes
  closeTail : Nat → Bytes → Bytes

/-- Fuel-indexed worker for `chunksOf` (the fuel is an upper bound on the
list length; every step drops at least one element since bufSize > 0). -/
def chunksOfAux : Nat → Bytes → List Bytes
  | 0, _ => []
  | fuel + 1, l => if l.isEmpty then [] else l.take bufSize :: chunksOfAux fuel (l.drop bufSize)

/-- Split a list into consecutive slices of at most `bufSize` bytes: the
successive return values of zr.Read(p.buf) with len(p.buf) = bufSize. -/
def chunksOf (l : Bytes) : List Bytes := chunksOfAux l.length l

/-- One freshly produced IDAT chunk of the re-chunker (pnglevel.go lines
221-241): 4-byte big-endian length (uint32(buf.Len()), i.e. mod 2^32),
the "IDAT" tag, the flushed bytes, then the big-endian Sum32 of a
crc32.NewIEEE that absorbed exactly "IDAT" ++ bytes (icrc is written with
the tag, then the bytes, and Reset after every chunk). -/
def idatEmitChunk (b : Bytes) : Bytes :=
  be32 b.length ++ idatTag ++ b ++ be32 (crc32 (idatTag ++ b))

/-- The read/write/flush loop of repacker.handleIDAT (pnglevel.go lines
201-242): for each slice of decompressed bytes, write it to the zlib
writer, Flush, and package the newly flushed bytes (the compressed stream
beyond the `m` already packaged) as one IDAT chunk.  `w` is the data
written to the zlib writer so far, `m` the length of flushStream already
emitted.  The deferred zw.Close() runs only after the loop: its output
(`closeTail`) lands in the local buffer after the last chunk was
packaged and is never written to the output. -/
def idatEmitLoop (cfg : Codec) (level : Nat) : List Bytes → Bytes → Nat → Bytes
  | [], _, _ => []
  | s :: rest, w, m =>
    let w' := w ++ s
    let fl := cfg.flushStream level w'
    idatEmitChunk (fl.drop m) ++ idatEmitLoop cfg level rest w' fl.length

/-- All output bytes of the re-chunker for decompressed content `d`. -/
def idatEmitAll (cfg : Codec) (level : Nat) (d : Bytes) : Bytes :=
  idatEmitLoop cfg level (chunksOf d) [] 0

/-! ## The image-stream merger

repacker.Read (pnglevel.go lines 246-276) feeds zlib across IDAT chunk
boundaries.  zlib pulls from it byte-exactly (compress/flate reads via an
io.ByteReader, so it consumes no byte beyond the logical stream), hence
on a well-formed input, whose zlib stream occupies exactly the
concatenated IDAT payloads, the merger consumes every in-run chunk's data
and CRC and the headers between them, verifies each finished chunk's CRC
("invalid checksum of IDAT chunk"), rejects in-run IDAT headers whose
length exceeds 2^31-1, and is never called again after the last payload
byte, so the trailing CRC of the last chunk is left to repack (lines
70-78), which checks it with the same message.  `readRun` is that
combined consumption: current chunk payload, trailing CRC check, and the
next header when it is an IDAT header. -/

def readRun : Nat → Nat → Bytes → St → M (Bytes × St)
  | 0, _, _, st => throw (st.out, .fuelOut)
  | fuel + 1, curLen, acc, st => do
    let (data, st) ← readN curLen st
    let st := { st with crcBuf := st.crcBuf ++ data }
    let (c4, st) ← readN 4 st
    if beVal c4 ≠ crc32 st.crcBuf then throw (st.out, .invalidIdatChecksum)
    if 8 ≤ st.inp.length ∧ (st.inp.take 8).drop 4 = idatTag then
      let (h8, st) ← readN 8 st
      let ulen := beVal (h8.take 4)
      if maxChunkLen < ulen then throw (st.out, .idatTooBig)
      readRun fuel ulen (acc ++ data) { st with crcBuf := idatTag }
    else
      pure (acc ++ data, st)

/-- repacker.handleIDAT (pnglevel.go lines 187-244) together with the
post-run CRC verification of repack (lines 70-78): consume the image-data
run, decode it through the black-box codec (zlib.NewReader failure or a
malformed stream is a decode failure), then run the re-chunking loop.
Decompression happens interleaved with reading in Go; the model reads the
run first and then emits, which produces the same output and error on
every input where the run is consumed, and differs only in how much
output accompanies a mid-run error. -/
def handleIDATRun (cfg : Codec) (level : Nat) (len : Nat) (st : St) : M St := do
  let (s, st) ← readRun (st.inp.length + 1) len [] st
  match cfg.inflate s with
  | none => throw (st.out, .corruptStream)
  | some d => pure { st with out := st.out ++ idatEmitAll cfg level d }

/-! ## The container walker loop -/

/-- The main loop of repacker.repack (pnglevel.go lines 53-89): read a
chunk header; io.EOF there is a clean end of file; an IDAT header starts
the image-data run (a second run is the ordering error); anything else is
copied verbatim through handleAnyChunk.  Fuel decreases by one per
iteration; every iteration consumes at least 12 source bytes, so
`input length + 1` fuel can never run out. -/
def repackLoop (cfg : Codec) (level : Nat) : Nat → St → Bytes × Option Err
  | 0, st => (st.out, some .fuelOut)
  | fuel + 1, st =>
    match chunkHdr st with
    | .error (o, .eofSig) => (o, none)
    | .error (o, e) => (o, some e)
    | .ok (len, kind, _tmp8, st') =>
      if kind = idatTag then
        if st'.haveIDAT then (st'.out, some .wrongIDATOrder)
        else
          match handleIDATRun cfg level len st' with
          | .error (o, e) => (o, some e)
          | .ok st'' => repackLoop cfg level fuel { st'' with haveIDAT := true }
      else
        match handleAnyChunk _tmp8 len st' with
        | .error (o, e) => (o, some e)
        | .ok st'' => repackLoop cfg level fuel st''

/-- Repack (pnglevel.go lines 37-46 and 48-90): returns the bytes written
to the output writer and the error result (`none` is Go's nil). -/
def repack (cfg : Codec) (level : Nat) (input : Bytes) : Bytes × Option Err :=
  match header ⟨input, [], [], false⟩ with
  | .error (o, e) => (o, some e)
  | .ok st => repackLoop cfg level (st.inp.length + 1) st

/-! ## repacker.Read, embedded on its own

The claims about the image-stream merger's read operation (its zero-length
fast path and its oversized-length check) are about repacker.Read itself
(pnglevel.go lines 246-276), so it is also embedded directly, over the
repacker fields it touches: the source, the crc hash, idatLength,
haveLastChunk, and tmp (which keeps the captured trailing header). -/

structure MSt where
  inp : Bytes
  crcBuf : Bytes
  idatLength : Nat
  haveLastChunk : Bool
  tmp8 : Bytes
deriving DecidableEq, Repr

/-- The `for p.idatLength == 0` loop of repacker.Read (lines 251-268):
verify the just-finished chunk's CRC, read the next 8-byte header into
tmp; a non-IDAT header sets haveLastChunk and returns io.EOF (the `true`
flag) without resetting the crc; an IDAT header resets the crc, absorbs
the tag, and loops while the new length is zero. -/
def mergerLoop : Nat → MSt → Except Err (Bool × MSt)
  | 0, _ => .error .fuelOut
  | fuel + 1, st =>
    if st.idatLength ≠ 0 then .ok (false, st) else
    if st.inp.length < 4 then
      .error (if st.inp.isEmpty then .eofSig else .truncated)
    else
      let c4 := st.inp.take 4
      let st := { st with inp := st.inp.drop 4 }
      if beVal c4 ≠ crc32 st.crcBuf then .error .invalidIdatChecksum else
      if st.inp.length < 8 then
        .error (if st.inp.isEmpty then .eofSig else .truncated)
      else
        let h8b := st.inp.take 8
        let st := { st with inp := st.inp.drop 8, tmp8 := h8b,
                            idatLength := beVal (h8b.take 4) }
        if h8b.drop 4 ≠ idatTag then .ok (true, { st with haveLastChunk := true })
        else mergerLoop fuel { st with crcBuf := h8b.drop 4 }

/-- repacker.Read (pnglevel.go lines 246-276) called with a destination
buffer of `n` bytes.  Returns the bytes delivered, the io.EOF flag, and
the new state.  A zero-length buffer returns immediately (line 248-250).
After the header loop, a current chunk length above 2^31-1 is "IDAT chunk
is too big"; otherwise up to min(n, idatLength) bytes are read from the
source, absorbed into the crc, and idatLength is decremented by the
number actually read. -/
def repackerRead (n : Nat) (st : MSt) : Except Err (Bytes × Bool × MSt) :=
  if n = 0 then .ok ([], false, st) else
  match mergerLoop (st.inp.length + 1) st with
  | .error e => .error e
  | .ok (true, st) => .ok ([], true, st)
  | .ok (false, st) =>
    if maxChunkLen < st.idatLength then .error .idatTooBig else
    let k := min n st.idatLength
    let bytes := st.inp.take k
    .ok (bytes, false,
      { st with inp := st.inp.drop k, crcBuf := st.crcBuf ++ bytes,
                idatLength := st.idatLength - bytes.length })

/-! ## The container-walker resumption branch -/

/-- repack lines 80-88, reached when handleIDAT returns with
p.haveLastChunk set: the 8 header bytes already captured in p.tmp by the
merger are used as the next chunk instead of reading a new header — the
length is re-read from tmp[:4], bounded, and the chunk is handed to
handleAnyChunk, which emits the captured header and then the payload from
the source.  Note no crc.Reset and no absorption of the trailer's type
happen on this path (repacker.Read lines 262-264 returned before them),
so `st.crcBuf` still holds what the hash contained when the merger
captured the header: the "IDAT" tag and data of the final image-data
chunk. -/
def resumeAfterIDAT (tmp8 : Bytes) (st : St) : M St :=
  let ulen := beVal (tmp8.take 4)
  if maxChunkLen < ulen then .error (st.out, .chunkTooBig)
  else handleAnyChunk tmp8 ulen st

/-! ## A chunk-sequence parser (for stating wire-format properties)

The parser is not part of pnglevel; it is the reference reading of the
container wire format, used to state that emitted byte streams really are
chunk sequences with correct CRC fields. -/

def parseChunksAux : Nat → Bytes → Option (List Chunk)
  | 0, bytes => if bytes.isEmpty then some [] else none
  | fuel + 1, bytes =>
    if bytes.isEmpty then some [] else
    if bytes.length < 8 then none else
    let n := beVal (bytes.take 4)
    let kind := (bytes.drop 4).take 4
    let rest := bytes.drop 8
    if rest.length < n + 4 then none else
    (parseChunksAux fuel (rest.drop (n + 4))).map
      (fun cs => ⟨kind, rest.take n, beVal ((rest.drop n).take 4)⟩ :: cs)

/-- Parse a byte stream as a whole sequence of chunks (nothing left over). -/
def parseChunks (b : Bytes) : Option (List Chunk) := parseChunksAux (b.length + 1) b

/-- The concatenated payloads of the IDAT chunks of a container byte
stream (signature first, then chunks). -/
def idatPayloads (b : Bytes) : Bytes :=
  match parseChunks (b.drop 8) with
  | some cs => ((cs.filter (fun c => c.kind == idatTag)).map Chunk.data).flatten
  | none => []

/-! ## Valid PNG inputs -/

/-- A structured PNG file: the header chunk, the non-image chunks before
the image-data run, the run itself, and the trailer chunks. -/
structure PngFile where
  ihdr : Chunk
  pre : List Chunk
  run : List Chunk
  post : List Chunk

/-- The concatenated payloads of the image-data run: the logical
compressed stream. -/
def runData (f : PngFile) : Bytes := (f.run.map Chunk.data).flatten

/-- The serialized container. -/
def pngBytes (f : PngFile) : Bytes :=
  pngSigBytes ++ chunkBytes f.ihdr ++ chunksBytes f.pre ++
    chunksBytes f.run ++ chunksBytes f.post

/-- A valid input for the transcoder with codec `cfg`: a well-formed IHDR
chunk (13-byte payload, compression-method byte zero, correct CRC),
well-formed non-image chunks around a single nonempty image-data run, a
final run chunk with nonempty payload (the compressed stream ends inside
it), and a logical stream the codec decodes while consuming exactly the
concatenated run payloads. -/
def ValidPng (cfg : Codec) (f : PngFile) : Prop :=
  f.ihdr.kind = ihdrTag ∧ f.ihdr.data.length = 13 ∧ f.ihdr.data.getD 10 0 = 0 ∧
  f.ihdr.crc = crc32 (ihdrTag ++ f.ihdr.data) ∧
  (∀ c ∈ f.pre, chunkOk c ∧ c.kind ≠ idatTag) ∧
  (∀ c ∈ f.run, chunkOk c ∧ c.kind = idatTag) ∧
  (∀ c ∈ f.post, chunkOk c ∧ c.kind ≠ idatTag) ∧
  f.run ≠ [] ∧ (f.run.getLastD ⟨[], [], 0⟩).data ≠ [] ∧
  (cfg.inflate (runData f)).isSome

instance (cfg : Codec) (f : PngFile) : Decidable (ValidPng cfg f) := by
  unfold ValidPng; infer_instance

/-! ## Concrete instances used as witnesses -/

/-- A chunk with a correct CRC field. -/
def mkChunk (k d : Bytes) : Chunk := ⟨k, d, crc32 (k ++ d)⟩

/-- A 13-byte IHDR payload: 1x1, bit depth 8, grayscale, compression 0,
filter 0, interlace 0. -/
def exIhdrData : Bytes := [0, 0, 0, 1, 0, 0, 0, 1, 8, 0, 0, 0, 0]

/-- A concrete black-box codec for witnesses.  A complete compressed
stream is any byte list ending in 0; its decoded content is everything
before that final 0.  The flushed (but unclosed) stream for content `d`
is `d` itself, and Close appends the terminating 0.  It satisfies the
zlib-shaped laws: inflate (flushStream l d ++ closeTail l d) = some d,
and flushStream is monotone in its input. -/
def exCodec : Codec where
  inflate s := if s.getLastD 1 = 0 then some s.dropLast else none
  flushStream _ d := d
  closeTail _ _ := [0]

/-- A minimal valid PNG for `exCodec`: IHDR, one IDAT chunk whose payload
[7, 0] is a complete exCodec stream with content [7], and IEND. -/
def exPng : PngFile :=
  ⟨mkChunk ihdrTag exIhdrData, [], [mkChunk idatTag [7, 0]], [mkChunk iendTag []]⟩

/-- The 4 ASCII bytes of "tEXt", an ancillary text chunk tag. -/
def exTextTag : Bytes := [0x74, 0x45, 0x58, 0x74]

/-- A corrupted chunk: the payload byte at offset 2 was flipped from 99
to 3, while the stored CRC field still holds the CRC of the original
payload, so its CRC check must fail. -/
def exBadChunk : Chunk := ⟨exTextTag, [1, 2, 3], crc32 (exTextTag ++ [1, 2, 99])⟩

/-- A container holding the corrupted chunk between IHDR and IEND. -/
def exBadInput : Bytes :=
  pngSigBytes ++ (chunkBytes (mkChunk ihdrTag exIhdrData) ++
    (chunkBytes exBadChunk ++ chunkBytes (mkChunk iendTag [])))

/-- The crc-hash contents after a chunk sequence has been walked: the tag
and data of the last chunk, or the entry value for an empty sequence. -/
def lastKD (cb : Bytes) : List Chunk → Bytes
  | [] => cb
  | c :: t => lastKD (c.kind ++ c.data) t

/-- The concatenated payloads of a chunk list. -/
def runDataL (cs : List Chunk) : Bytes := (cs.map Chunk.data).flatten

/-- The chunk values the re-chunker emits, one per flush cycle, in order:
each carries the IDAT tag, the newly flushed bytes, and the CRC of the
tag and exactly those bytes. -/
def emitChunksL (cfg : Codec) (level : Nat) : List Bytes → Bytes → Nat → List Chunk
  | [], _, _ => []
  | s :: rest, w, m =>
    Chunk.mk idatTag ((cfg.flushStream level (w ++ s)).drop m)
        (crc32 (idatTag ++ (cfg.flushStream level (w ++ s)).drop m)) ::
      emitChunksL cfg level rest (w ++ s) (cfg.flushStream level (w ++ s)).length

/-! ## Basic lemmas: arithmetic bounds and byte round trips -/

theorem be32_length (n : Nat) : (be32 n).length = 4 := rfl

theorem beVal_be32 {n : Nat} (h : n < 2 ^ 32) : beVal (be32 n) = n := by
  simp only [be32, beVal, List.foldl]
  have h24 : (2 : Nat) ^ 24 = 16777216 := by norm_num
  have h16 : (2 : Nat) ^ 16 = 65536 := by norm_num
  have h8 : (2 : Nat) ^ 8 = 256 := by norm_num
  have h32 : (2 : Nat) ^ 32 = 4294967296 := by norm_num
  rw [h24, h16, h8] at *
  omega

theorem crcStep_lt {a : Nat} (h : a < 2 ^ 32) : crcStep a < 2 ^ 32 := by
  unfold crcStep
  split
  · exact Nat.xor_lt_two_pow (by omega) (by norm_num [crcPoly])
  · omega

theorem crcUpd_lt {c : Nat} (b : Nat) (h : c < 2 ^ 32) : crcUpd c b < 2 ^ 32 := by
  unfold crcUpd
  have h0 : c ^^^ (b % 256) < 2 ^ 32 :=
    Nat.xor_lt_two_pow h (lt_of_lt_of_le (Nat.mod_lt _ (by norm_num)) (by norm_num))
  have hr : List.range 8 = [0, 1, 2, 3, 4, 5, 6, 7] := rfl
  rw [hr]
  simp only [List.foldl]
  exact crcStep_lt (crcStep_lt (crcStep_lt (crcStep_lt (crcStep_lt (crcStep_lt
    (crcStep_lt (crcStep_lt h0)))))))

theorem crc32_lt (l : Bytes) : crc32 l < 2 ^ 32 := by
  unfold crc32
  have hfold : ∀ (t : Bytes) (c : Nat), c < 2 ^ 32 → t.foldl crcUpd c < 2 ^ 32 := by
    intro t
    induction t with
    | nil => exact fun c h => h
    | cons a t ih => exact fun c h => ih _ (crcUpd_lt a h)
  exact Nat.xor_lt_two_pow (hfold l _ (by norm_num)) (by norm_num)

theorem maxChunkLen_lt : maxChunkLen < 2 ^ 32 := by norm_num [maxChunkLen]

/-! ## Step lemmas for the monadic readers -/

theorem bind_ok {α β : Type} (x : α) (f : α → M β) :
    (Except.ok x >>= f : M β) = f x := rfl

theorem bind_error {α β : Type} (e : Bytes × Err) (f : α → M β) :
    (Except.error e >>= f : M β) = Except.error e := rfl

theorem throw_eq {α : Type} (e : Bytes × Err) : (throw e : M α) = Except.error e := rfl

theorem readN_exact {l : Bytes} {n : Nat} (r o cb : Bytes) (hI : Bool)
    (h : l.length = n) :
    readN n ⟨l ++ r, o, cb, hI⟩ = .ok (l, ⟨r, o, cb, hI⟩) := by
  unfold readN
  rw [if_neg (by simp [List.length_append, h])]
  simp [List.take_left' h, List.drop_left' h]

theorem readN_nil (n : Nat) (o cb : Bytes) (hI : Bool) (h : 0 < n) :
    readN n ⟨[], o, cb, hI⟩ = .error (o, .eofSig) := by
  unfold readN
  rw [if_pos (by simpa using h)]
  rfl

theorem chunkHdr_cons {c : Chunk} (rest o cb : Bytes) (hI : Bool)
    (hk : c.kind.length = 4) (hl : c.data.length ≤ maxChunkLen) :
    chunkHdr ⟨chunkBytes c ++ rest, o, cb, hI⟩ =
      .ok (c.data.length, c.kind, be32 c.data.length ++ c.kind,
        ⟨c.data ++ be32 c.crc ++ rest, o, c.kind, hI⟩) := by
  have hsplit : chunkBytes c ++ rest =
      (be32 c.data.length ++ c.kind) ++ (c.data ++ be32 c.crc ++ rest) := by
    simp [chunkBytes]
  have hlen8 : (be32 c.data.length ++ c.kind).length = 8 := by
    simp [List.length_append, be32_length, hk]
  rw [hsplit]
  unfold chunkHdr
  rw [readN_exact _ _ _ _ hlen8, bind_ok]
  have htake : (be32 c.data.length ++ c.kind).take 4 = be32 c.data.length :=
    List.take_left' (be32_length _)
  have hdrop : (be32 c.data.length ++ c.kind).drop 4 = c.kind :=
    List.drop_left' (be32_length _)
  have hval : beVal (be32 c.data.length) = c.data.length :=
    beVal_be32 (lt_of_le_of_lt hl maxChunkLen_lt)
  simp only [htake, hdrop, hval]
  rw [if_neg (by omega)]
  rfl

theorem verifyCrcM_ok {stored : Nat} (rest o cb : Bytes) (hI : Bool)
    (h : stored = crc32 cb) (hlt : stored < 2 ^ 32) :
    verifyCrcM ⟨be32 stored ++ rest, o, cb, hI⟩ = .ok (be32 stored, ⟨rest, o, cb, hI⟩) := by
  subst h
  unfold verifyCrcM
  rw [readN_exact _ _ _ _ (be32_length _), bind_ok]
  dsimp only
  rw [if_neg (by simp [beVal_be32 hlt])]
  rfl

theorem verifyCrcM_fail {c4 : Bytes} (rest o cb : Bytes) (hI : Bool)
    (h4 : c4.length = 4) (h : beVal c4 ≠ crc32 cb) :
    verifyCrcM ⟨c4 ++ rest, o, cb, hI⟩ = .error (o, .invalidChecksum) := by
  unfold verifyCrcM
  rw [readN_exact _ _ _ _ h4, bind_ok]
  dsimp only
  rw [if_pos h]
  rfl

theorem handleAnyChunk_ok {c : Chunk} (rest o : Bytes) (hI : Bool)
    (hcrc : c.crc = crc32 (c.kind ++ c.data)) :
    handleAnyChunk (be32 c.data.length ++ c.kind) c.data.length
        ⟨c.data ++ be32 c.crc ++ rest, o, c.kind, hI⟩ =
      .ok ⟨rest, o ++ chunkBytes c, c.kind ++ c.data, hI⟩ := by
  unfold handleAnyChunk
  dsimp only
  rw [List.append_assoc, readN_exact _ _ _ _ rfl, bind_ok]
  dsimp only
  rw [verifyCrcM_ok _ _ _ _ hcrc (hcrc ▸ crc32_lt _), bind_ok]
  dsimp only
  show Except.ok _ = _
  simp [chunkBytes, List.append_assoc]

theorem handleAnyChunk_corrupt {c : Chunk} (rest o : Bytes) (hI : Bool)
    (hlt : c.crc < 2 ^ 32) (hcrc : c.crc ≠ crc32 (c.kind ++ c.data)) :
    handleAnyChunk (be32 c.data.length ++ c.kind) c.data.length
        ⟨c.data ++ be32 c.crc ++ rest, o, c.kind, hI⟩ =
      .error ((o ++ (be32 c.data.length ++ c.kind)) ++ c.data, .invalidChecksum) := by
  unfold handleAnyChunk
  dsimp only
  rw [List.append_assoc, readN_exact _ _ _ _ rfl, bind_ok]
  dsimp only
  rw [verifyCrcM_fail _ _ _ _ (be32_length _) (by rw [beVal_be32 hlt]; exact hcrc), bind_error]

theorem header_ok {ihdr : Chunk} (rest : Bytes)
    (hk : ihdr.kind = ihdrTag) (hlen : ihdr.data.length = 13)
    (h10 : ihdr.data.getD 10 0 = 0) (hcrc : ihdr.crc = crc32 (ihdrTag ++ ihdr.data)) :
    header ⟨pngSigBytes ++ (chunkBytes ihdr ++ rest), [], [], false⟩ =
      .ok ⟨rest, pngSigBytes ++ chunkBytes ihdr, ihdrTag ++ ihdr.data, false⟩ := by
  unfold header
  rw [readN_exact _ _ _ _ (show pngSigBytes.length = 8 from rfl), bind_ok]
  dsimp only
  rw [if_neg (by simp)]
  rw [chunkHdr_cons _ _ _ _ (by rw [hk]; rfl) (by rw [hlen]; norm_num [maxChunkLen]),
    bind_ok]
  dsimp only
  rw [if_neg (by rw [hk]; simp), if_neg (by rw [hlen]; simp)]
  rw [List.append_assoc, readN_exact _ _ _ _ hlen, bind_ok]
  dsimp only
  rw [if_neg (by rw [h10]; simp)]
  rw [verifyCrcM_ok _ _ _ _ (by rw [hcrc, hk]) (hcrc ▸ crc32_lt _), bind_ok]
  dsimp only
  rw [hk]
  show Except.ok _ = _
  simp [chunkBytes, hk, hlen, List.append_assoc]

theorem chunkHdr_nil (o cb : Bytes) (hI : Bool) :
    chunkHdr ⟨[], o, cb, hI⟩ = .error (o, .eofSig) := by
  unfold chunkHdr
  rw [readN_nil 8 o cb hI (by norm_num), bind_error]

theorem repackLoop_nil (cfg : Codec) (level fuel : Nat) (o cb : Bytes) (hI : Bool) :
    repackLoop cfg level (fuel + 1) ⟨[], o, cb, hI⟩ = (o, none) := by
  simp only [repackLoop]
  rw [chunkHdr_nil]

/-- repacker.chunk overwrites the crc state (Reset, then the 4 tag bytes)
before anything can consult it, so its whole result is independent of the
hash contents on entry. -/
theorem chunkHdr_indep (inp o cb cb' : Bytes) (hI : Bool) :
    chunkHdr ⟨inp, o, cb, hI⟩ = chunkHdr ⟨inp, o, cb', hI⟩ := by
  unfold chunkHdr readN
  by_cases h : inp.length < 8
  · simp only [if_pos h]
  · simp only [if_neg h]
    rfl

theorem repackLoop_crcBuf_indep (cfg : Codec) (level fuel : Nat)
    (inp o cb cb' : Bytes) (hI : Bool) :
    repackLoop cfg level fuel ⟨inp, o, cb, hI⟩ =
      repackLoop cfg level fuel ⟨inp, o, cb', hI⟩ := by
  cases fuel with
  | zero => simp only [repackLoop]
  | succ fuel =>
    simp only [repackLoop]
    rw [chunkHdr_indep inp o cb cb' hI]

theorem repackLoop_step_nonidat (cfg : Codec) (level : Nat) {c : Chunk}
    (rest o cb : Bytes) (hI : Bool) (fuel : Nat)
    (hok : chunkOk c) (hkind : c.kind ≠ idatTag) :
    repackLoop cfg level (fuel + 1) ⟨chunkBytes c ++ rest, o, cb, hI⟩ =
      repackLoop cfg level fuel ⟨rest, o ++ chunkBytes c, c.kind ++ c.data, hI⟩ := by
  obtain ⟨hk4, hlen, hcrc⟩ := hok
  simp only [repackLoop]
  rw [chunkHdr_cons rest o cb hI hk4 hlen]
  dsimp only
  rw [if_neg hkind]
  rw [handleAnyChunk_ok rest o hI hcrc]

theorem repackLoop_chunks (cfg : Codec) (level : Nat) (cs : List Chunk)
    (rest o cb : Bytes) (hI : Bool) (fuel : Nat)
    (h : ∀ c ∈ cs, chunkOk c ∧ c.kind ≠ idatTag) :
    repackLoop cfg level (cs.length + (fuel + 1)) ⟨chunksBytes cs ++ rest, o, cb, hI⟩ =
      repackLoop cfg level (fuel + 1) ⟨rest, o ++ chunksBytes cs, lastKD cb cs, hI⟩ := by
  induction cs generalizing o cb with
  | nil => simp [chunksBytes, lastKD]
  | cons c t ih =>
    have hc := h c (by simp)
    have hcs : chunksBytes (c :: t) = chunkBytes c ++ chunksBytes t := by
      simp [chunksBytes]
    rw [hcs, List.append_assoc]
    have hfuel : (c :: t).length + (fuel + 1) = (t.length + (fuel + 1)) + 1 := by
      simp [List.length_cons]; omega
    rw [hfuel]
    rw [repackLoop_step_nonidat cfg level _ o cb hI _ hc.1 hc.2]
    rw [ih (o ++ chunkBytes c) (c.kind ++ c.data)
      (fun x hx => h x (List.mem_cons_of_mem c hx))]
    simp [lastKD, List.append_assoc]

/-! ## The image-data run -/

theorem peek_not_idat {cs : List Chunk} (extra : Bytes)
    (h : ∀ c ∈ cs, chunkOk c ∧ c.kind ≠ idatTag)
    (hextra : cs = [] → extra = []) :
    ¬ (8 ≤ (chunksBytes cs ++ extra).length ∧
        ((chunksBytes cs ++ extra).take 8).drop 4 = idatTag) := by
  cases cs with
  | nil =>
    rw [hextra rfl]
    simp [chunksBytes]
  | cons c t =>
    obtain ⟨⟨hk4, -, -⟩, hkind⟩ := h c (by simp)
    have hsplit : chunksBytes (c :: t) ++ extra =
        (be32 c.data.length ++ c.kind) ++
          (c.data ++ be32 c.crc ++ (chunksBytes t ++ extra)) := by
      simp [chunksBytes, chunkBytes, List.append_assoc]
    have hlen8 : (be32 c.data.length ++ c.kind).length = 8 := by
      simp [be32_length, hk4]
    rw [hsplit, List.take_left' hlen8, List.drop_left' (be32_length _)]
    rintro ⟨-, hcontra⟩
    exact hkind hcontra

theorem readRun_last (n : Nat) (c : Chunk) (rest o acc : Bytes) (hI : Bool)
    (hcrc : c.crc = crc32 (idatTag ++ c.data))
    (hrest : ¬ (8 ≤ rest.length ∧ (rest.take 8).drop 4 = idatTag)) :
    readRun (n + 1) c.data.length acc ⟨c.data ++ be32 c.crc ++ rest, o, idatTag, hI⟩ =
      .ok (acc ++ c.data, ⟨rest, o, idatTag ++ c.data, hI⟩) := by
  simp only [readRun]
  rw [List.append_assoc, readN_exact _ _ _ _ rfl, bind_ok]
  dsimp only
  rw [readN_exact _ _ _ _ (be32_length _), bind_ok]
  dsimp only
  rw [if_neg (by rw [beVal_be32 (hcrc ▸ crc32_lt _), hcrc]; simp)]
  rw [if_neg hrest]
  rfl

theorem readRun_cons (n : Nat) (c c2 : Chunk) (tail o acc : Bytes) (hI : Bool)
    (hcrc : c.crc = crc32 (idatTag ++ c.data))
    (hk42 : c2.kind.length = 4) (hlen2 : c2.data.length ≤ maxChunkLen)
    (hkind2 : c2.kind = idatTag) :
    readRun (n + 1) c.data.length acc
        ⟨c.data ++ be32 c.crc ++ (chunkBytes c2 ++ tail), o, idatTag, hI⟩ =
      readRun n c2.data.length (acc ++ c.data)
        ⟨c2.data ++ be32 c2.crc ++ tail, o, idatTag, hI⟩ := by
  simp only [readRun]
  rw [List.append_assoc, readN_exact _ _ _ _ rfl, bind_ok]
  dsimp only
  rw [readN_exact _ _ _ _ (be32_length _), bind_ok]
  dsimp only
  rw [if_neg (by rw [beVal_be32 (hcrc ▸ crc32_lt _), hcrc]; simp)]
  have hsplit : chunkBytes c2 ++ tail =
      (be32 c2.data.length ++ c2.kind) ++ (c2.data ++ be32 c2.crc ++ tail) := by
    simp [chunkBytes, List.append_assoc]
  have hlen8 : (be32 c2.data.length ++ c2.kind).length = 8 := by
    simp [be32_length, hk42]
  rw [if_pos ?hpeek]
  case hpeek =>
    constructor
    · rw [hsplit]
      simp only [List.length_append, hlen8]
      omega
    · rw [hsplit, List.take_left' hlen8, List.drop_left' (be32_length _)]
      exact hkind2
  rw [hsplit, readN_exact _ _ _ _ hlen8, bind_ok]
  dsimp only
  rw [List.take_left' (be32_length _), beVal_be32 (lt_of_le_of_lt hlen2 maxChunkLen_lt)]
  rw [if_neg (by omega)]
  rfl

theorem readRun_spec (cs : List Chunk) (c : Chunk) (rest o acc : Bytes) (hI : Bool)
    (fuel : Nat)
    (hc : chunkOk c ∧ c.kind = idatTag)
    (hcs : ∀ x ∈ cs, chunkOk x ∧ x.kind = idatTag)
    (hrest : ¬ (8 ≤ rest.length ∧ (rest.take 8).drop 4 = idatTag)) :
    readRun (cs.length + (fuel + 1)) c.data.length acc
        ⟨c.data ++ be32 c.crc ++ (chunksBytes cs ++ rest), o, idatTag, hI⟩ =
      .ok (acc ++ runDataL (c :: cs), ⟨rest, o, idatTag ++ (cs.getLastD c).data, hI⟩) := by
  induction cs generalizing c acc with
  | nil =>
    obtain ⟨⟨hk4, hlen, hcrc⟩, hkind⟩ := hc
    have hcrc2 : c.crc = crc32 (idatTag ++ c.data) := by rw [hcrc, hkind]
    have hnil : chunksBytes ([] : List Chunk) ++ rest = rest := by simp [chunksBytes]
    rw [List.length_nil, Nat.zero_add, hnil, readRun_last fuel c rest o acc hI hcrc2 hrest]
    simp [runDataL]
  | cons c2 t ih =>
    obtain ⟨⟨hk4, hlen, hcrc⟩, hkind⟩ := hc
    obtain ⟨⟨hk42, hlen2, hcrc2⟩, hkind2⟩ := hcs c2 (by simp)
    have hcrcI : c.crc = crc32 (idatTag ++ c.data) := by rw [hcrc, hkind]
    have hfuel : (c2 :: t).length + (fuel + 1) = (t.length + (fuel + 1)) + 1 := by
      simp [List.length_cons]; omega
    have hsplit : chunksBytes (c2 :: t) ++ rest = chunkBytes c2 ++ (chunksBytes t ++ rest) := by
      simp [chunksBytes, List.append_assoc]
    rw [hfuel, hsplit,
      readRun_cons (t.length + (fuel + 1)) c c2 (chunksBytes t ++ rest) o acc hI
        hcrcI hk42 hlen2 hkind2]
    rw [ih c2 (acc ++ c.data) ⟨⟨hk42, hlen2, hcrc2⟩, hkind2⟩
      (fun x hx => hcs x (List.mem_cons_of_mem c2 hx))]
    cases t with
    | nil => simp [runDataL, List.append_assoc]
    | cons x xs =>
      simp only [runDataL, List.map_cons, List.flatten_cons, List.append_assoc, List.getLastD,
        List.getLast?_eq_getLast (x :: xs) (by simp)]
      simp

theorem chunkBytes_length (c : Chunk) (hk : c.kind.length = 4) :
    (chunkBytes c).length = 12 + c.data.length := by
  simp only [chunkBytes, List.length_append, be32_length, hk]
  omega

theorem chunksBytes_length_ge (cs : List Chunk) (h : ∀ c ∈ cs, c.kind.length = 4) :
    cs.length ≤ (chunksBytes cs).length := by
  induction cs with
  | nil => simp [chunksBytes]
  | cons c t ih =>
    have h1 := chunkBytes_length c (h c (by simp))
    have h2 := ih (fun x hx => h x (List.mem_cons_of_mem c hx))
    have hsplit : chunksBytes (c :: t) = chunkBytes c ++ chunksBytes t := by
      simp [chunksBytes]
    rw [hsplit]
    simp only [List.length_append, List.length_cons, h1]
    omega

theorem handleIDATRun_spec (cfg : Codec) (level : Nat) (c : Chunk) (cs : List Chunk)
    (rest o : Bytes) (hI : Bool) (d : Bytes)
    (hc : chunkOk c ∧ c.kind = idatTag)
    (hcs : ∀ x ∈ cs, chunkOk x ∧ x.kind = idatTag)
    (hrest : ¬ (8 ≤ rest.length ∧ (rest.take 8).drop 4 = idatTag))
    (hinf : cfg.inflate (runDataL (c :: cs)) = some d) :
    handleIDATRun cfg level c.data.length
        ⟨c.data ++ be32 c.crc ++ (chunksBytes cs ++ rest), o, idatTag, hI⟩ =
      .ok ⟨rest, o ++ idatEmitAll cfg level d, idatTag ++ (cs.getLastD c).data, hI⟩ := by
  unfold handleIDATRun
  dsimp only
  have hge : cs.length ≤ (c.data ++ be32 c.crc ++ (chunksBytes cs ++ rest)).length := by
    have h1 := chunksBytes_length_ge cs (fun x hx => (hcs x hx).1.1)
    simp only [List.length_append]
    omega
  obtain ⟨k, hk⟩ := Nat.exists_eq_add_of_le hge
  rw [show (c.data ++ be32 c.crc ++ (chunksBytes cs ++ rest)).length + 1 =
      cs.length + (k + 1) from by omega]
  rw [readRun_spec cs c rest o [] hI k hc hcs hrest, bind_ok]
  dsimp only
  rw [List.nil_append, hinf]
  rfl

theorem repackLoop_step_idat (cfg : Codec) (level : Nat) (c : Chunk) (cs : List Chunk)
    (rest o cb : Bytes) (fuel : Nat) (d : Bytes)
    (hc : chunkOk c ∧ c.kind = idatTag)
    (hcs : ∀ x ∈ cs, chunkOk x ∧ x.kind = idatTag)
    (hrest : ¬ (8 ≤ rest.length ∧ (rest.take 8).drop 4 = idatTag))
    (hinf : cfg.inflate (runDataL (c :: cs)) = some d) :
    repackLoop cfg level (fuel + 1) ⟨chunksBytes (c :: cs) ++ rest, o, cb, false⟩ =
      repackLoop cfg level fuel
        ⟨rest, o ++ idatEmitAll cfg level d, idatTag ++ (cs.getLastD c).data, true⟩ := by
  simp only [repackLoop]
  have hsplit : chunksBytes (c :: cs) ++ rest = chunkBytes c ++ (chunksBytes cs ++ rest) := by
    simp [chunksBytes, List.append_assoc]
  rw [hsplit, chunkHdr_cons _ o cb false hc.1.1 hc.1.2.1]
  dsimp only
  rw [if_pos hc.2]
  rw [if_neg (by simp)]
  rw [hc.2, handleIDATRun_spec cfg level c cs rest o false d hc hcs hrest hinf]

/-! ## Structure of the re-chunker output -/

theorem chunksOfAux_flatten (f : Nat) (l : Bytes) (h : l.length ≤ f) :
    (chunksOfAux f l).flatten = l := by
  induction f generalizing l with
  | zero =>
    have hl : l = [] := by cases l with
      | nil => rfl
      | cons a as => simp at h
    simp [hl, chunksOfAux]
  | succ f ih =>
    cases l with
    | nil => simp [chunksOfAux]
    | cons a as =>
      simp only [chunksOfAux, List.isEmpty_cons, Bool.false_eq_true, if_false,
        List.flatten_cons]
      have hbs : 0 < bufSize := by decide
      rw [ih _ (by simp only [List.length_drop]; simp at h ⊢; omega)]
      exact List.take_append_drop _ _

theorem chunksOf_flatten (l : Bytes) : (chunksOf l).flatten = l :=
  chunksOfAux_flatten l.length l le_rfl

theorem flatten_take_length_le (xs : List Bytes) (i : Nat) :
    ((xs.take i).flatten).length ≤ xs.flatten.length := by
  conv_rhs => rw [← List.take_append_drop i xs]
  rw [List.flatten_append, List.length_append]
  omega

theorem emitChunksL_form (cfg : Codec) (level : Nat) (slices : List Bytes) (w : Bytes)
    (m : Nat) : ∀ c ∈ emitChunksL cfg level slices w m,
      c.kind = idatTag ∧ c.crc = crc32 (c.kind ++ c.data) := by
  induction slices generalizing w m with
  | nil => intro c hc; simp [emitChunksL] at hc
  | cons s rest ih =>
    intro c hc
    simp only [emitChunksL, List.mem_cons] at hc
    rcases hc with hc | hc
    · subst hc; exact ⟨rfl, rfl⟩
    · exact ih _ _ c hc

theorem parseChunksAux_nil (f : Nat) : parseChunksAux f [] = some [] := by
  cases f <;> simp [parseChunksAux]

theorem parseChunksAux_step (n : Nat) (b rest : Bytes) (hlt : b.length < 2 ^ 32) :
    parseChunksAux (n + 1) (idatEmitChunk b ++ rest) =
      (parseChunksAux n rest).map
        (fun cs => Chunk.mk idatTag b (crc32 (idatTag ++ b)) :: cs) := by
  have hsplit : idatEmitChunk b ++ rest =
      be32 b.length ++ (idatTag ++ (b ++ (be32 (crc32 (idatTag ++ b)) ++ rest))) := by
    simp [idatEmitChunk, List.append_assoc]
  rw [hsplit]
  simp only [parseChunksAux]
  rw [if_neg (by simp [be32])]
  rw [if_neg (by
    simp only [List.length_append, be32_length, show (idatTag : Bytes).length = 4 from rfl]
    omega)]
  rw [List.take_left' (be32_length _), beVal_be32 hlt]
  have hdrop4 : (be32 b.length ++ (idatTag ++ (b ++ (be32 (crc32 (idatTag ++ b)) ++ rest)))).drop 4 =
      idatTag ++ (b ++ (be32 (crc32 (idatTag ++ b)) ++ rest)) := List.drop_left' (be32_length _)
  have hdrop8 : (be32 b.length ++ (idatTag ++ (b ++ (be32 (crc32 (idatTag ++ b)) ++ rest)))).drop 8 =
      b ++ (be32 (crc32 (idatTag ++ b)) ++ rest) := by
    rw [show (8 : Nat) = 4 + 4 from rfl, ← List.drop_drop, hdrop4]
    exact List.drop_left' rfl
  rw [hdrop4, hdrop8]
  rw [List.take_left' rfl]
  rw [if_neg (by simp only [List.length_append, be32_length]; omega)]
  rw [List.take_left' (show (idatTag : Bytes).length = 4 from rfl),
    List.drop_left' rfl, List.take_left' (be32_length _), beVal_be32 (crc32_lt _)]
  have hdropn4 : (b ++ (be32 (crc32 (idatTag ++ b)) ++ rest)).drop (b.length + 4) = rest := by
    rw [← List.drop_drop, List.drop_left' rfl]
    exact List.drop_left' (be32_length _)
  rw [hdropn4]

theorem idatEmitLoop_length_ge (cfg : Codec) (level : Nat) (slices : List Bytes)
    (w : Bytes) (m : Nat) :
    slices.length ≤ (idatEmitLoop cfg level slices w m).length := by
  induction slices generalizing w m with
  | nil => simp [idatEmitLoop]
  | cons s rest ih =>
    simp only [idatEmitLoop, List.length_append, List.length_cons]
    have h1 : 1 ≤ (idatEmitChunk ((cfg.flushStream level (w ++ s)).drop m)).length := by
      simp only [idatEmitChunk, List.length_append, be32_length,
        show (idatTag : Bytes).length = 4 from rfl]
      omega
    have h2 := ih (w ++ s) (cfg.flushStream level (w ++ s)).length
    omega

theorem parse_emitLoop (cfg : Codec) (level : Nat) (slices : List Bytes) (w : Bytes)
    (m fuel : Nat)
    (hb : ∀ i, (cfg.flushStream level (w ++ (slices.take i).flatten)).length < 2 ^ 32) :
    parseChunksAux (slices.length + fuel) (idatEmitLoop cfg level slices w m) =
      some (emitChunksL cfg level slices w m) := by
  induction slices generalizing w m fuel with
  | nil => simp [idatEmitLoop, emitChunksL, parseChunksAux_nil]
  | cons s rest ih =>
    have hblock : ((cfg.flushStream level (w ++ s)).drop m).length < 2 ^ 32 := by
      have h1 := hb 1
      simp only [List.take_succ_cons, List.take_zero, List.flatten_cons,
        List.flatten_nil, List.append_nil] at h1
      simp only [List.length_drop]
      omega
    have hfuel : (s :: rest).length + fuel = (rest.length + fuel) + 1 := by
      simp [List.length_cons]; omega
    rw [hfuel]
    simp only [idatEmitLoop]
    rw [parseChunksAux_step _ _ _ hblock]
    rw [ih (w ++ s) (cfg.flushStream level (w ++ s)).length fuel
      (fun i => by
        have h2 := hb (i + 1)
        simpa [List.append_assoc] using h2)]
    simp [emitChunksL]

/-- The re-chunker output parses back as exactly the emitted chunk list. -/
theorem parse_emitAll (cfg : Codec) (level : Nat) (d : Bytes)
    (hb : ∀ u : Bytes, u.length ≤ d.length → (cfg.flushStream level u).length < 2 ^ 32) :
    parseChunks (idatEmitAll cfg level d) = some (emitChunksL cfg level (chunksOf d) [] 0) := by
  unfold parseChunks idatEmitAll
  have hge := idatEmitLoop_length_ge cfg level (chunksOf d) [] 0
  obtain ⟨k, hk⟩ := Nat.exists_eq_add_of_le hge
  rw [show (idatEmitLoop cfg level (chunksOf d) [] 0).length + 1 =
      (chunksOf d).length + (k + 1) from by omega]
  exact parse_emitLoop cfg level (chunksOf d) [] 0 (k + 1)
    (fun i => hb _ (by
      have h1 := flatten_take_length_le (chunksOf d) i
      rw [chunksOf_flatten] at h1
      simpa using h1))

/-! ## The main correctness theorem over valid inputs -/

theorem repack_valid (cfg : Codec) (level : Nat) (f : PngFile) (h : ValidPng cfg f) :
    repack cfg level (pngBytes f) =
      (pngSigBytes ++ chunkBytes f.ihdr ++ chunksBytes f.pre ++
        idatEmitAll cfg level ((cfg.inflate (runData f)).getD []) ++ chunksBytes f.post,
       none) := by
  obtain ⟨hk, hlen, h10, hcrc, hpre, hrun, hpost, hne, hlast, hinf⟩ := h
  obtain ⟨d, hd⟩ := Option.isSome_iff_exists.mp hinf
  have heq : pngBytes f = pngSigBytes ++ (chunkBytes f.ihdr ++
      (chunksBytes f.pre ++ (chunksBytes f.run ++ chunksBytes f.post))) := by
    simp [pngBytes, List.append_assoc]
  simp only [repack, heq]
  rw [header_ok _ hk hlen h10 hcrc]
  dsimp only
  cases hr : f.run with
  | nil => exact absurd hr hne
  | cons c cs =>
    have hc := hrun c (by rw [hr]; simp)
    have hcs : ∀ x ∈ cs, chunkOk x ∧ x.kind = idatTag :=
      fun x hx => hrun x (by rw [hr]; exact List.mem_cons_of_mem c hx)
    have hinf' : cfg.inflate (runDataL (c :: cs)) = some d := by
      rw [← hr]; exact hd
    have hrest : ¬ (8 ≤ (chunksBytes f.post).length ∧
        ((chunksBytes f.post).take 8).drop 4 = idatTag) := by
      have hp := @peek_not_idat f.post []
        (fun x hx => ⟨(hpost x hx).1, (hpost x hx).2⟩) (fun _ => rfl)
      simpa using hp
    have hge : f.pre.length + f.post.length + 1 ≤
        (chunksBytes f.pre ++ (chunksBytes (c :: cs) ++ chunksBytes f.post)).length := by
      have h1 := chunksBytes_length_ge f.pre (fun x hx => (hpre x hx).1.1)
      have h2 := chunksBytes_length_ge f.post (fun x hx => (hpost x hx).1.1)
      have h4 := chunkBytes_length c hc.1.1
      have h5 : chunksBytes (c :: cs) = chunkBytes c ++ chunksBytes cs := by
        simp [chunksBytes]
      have h3 : 1 ≤ (chunksBytes (c :: cs)).length := by
        rw [h5]
        simp only [List.length_append, h4]
        omega
      simp only [List.length_append]
      omega
    obtain ⟨k, hk2⟩ := Nat.exists_eq_add_of_le hge
    rw [show (chunksBytes f.pre ++ (chunksBytes (c :: cs) ++ chunksBytes f.post)).length + 1 =
        f.pre.length + ((f.post.length + (k + 1)) + 1) from by omega]
    rw [repackLoop_chunks cfg level f.pre _ _ _ false _ hpre]
    rw [repackLoop_step_idat cfg level c cs (chunksBytes f.post) _ _ _ d hc hcs hrest hinf']
    have hppost := repackLoop_chunks cfg level f.post []
      (pngSigBytes ++ chunkBytes f.ihdr ++ chunksBytes f.pre ++
        idatEmitAll cfg level d)
      (idatTag ++ (cs.getLastD c).data) true k hpost
    rw [List.append_nil] at hppost
    rw [show (pngSigBytes ++ chunkBytes f.ihdr ++ chunksBytes f.pre ++
        idatEmitAll cfg level d : Bytes) =
        pngSigBytes ++ chunkBytes f.ihdr ++ (chunksBytes f.pre ++ idatEmitAll cfg level d)
      from by simp [List.append_assoc]] at hppost
    rw [show ((pngSigBytes ++ chunkBytes f.ihdr ++ chunksBytes f.pre : Bytes) ++
        idatEmitAll cfg level d) =
        pngSigBytes ++ chunkBytes f.ihdr ++ (chunksBytes f.pre ++ idatEmitAll cfg level d)
      from by simp [List.append_assoc]]
    rw [hppost, repackLoop_nil]
    have hgd : (cfg.inflate (runData f)).getD [] = d := by rw [hd]; rfl
    rw [hgd]
    simp [List.append_assoc]

/-! ## Error-path lemmas -/

theorem chunkHdr_raw (n : Nat) (k4 rest o cb : Bytes) (hI : Bool)
    (hk : k4.length = 4) (hn : n ≤ maxChunkLen) :
    chunkHdr ⟨(be32 n ++ k4) ++ rest, o, cb, hI⟩ =
      .ok (n, k4, be32 n ++ k4, ⟨rest, o, k4, hI⟩) := by
  unfold chunkHdr
  rw [readN_exact _ _ _ _ (show (be32 n ++ k4).length = 8 by simp [be32_length, hk]),
    bind_ok]
  dsimp only
  rw [List.take_left' (be32_length _), beVal_be32 (lt_of_le_of_lt hn maxChunkLen_lt)]
  rw [if_neg (by omega)]
  rw [List.drop_left' (be32_length _)]
  rfl

theorem chunkHdr_too_big (n : Nat) (k4 rest o cb : Bytes) (hI : Bool)
    (hk : k4.length = 4) (hn : maxChunkLen < n) (hn32 : n < 2 ^ 32) :
    chunkHdr ⟨(be32 n ++ k4) ++ rest, o, cb, hI⟩ = .error (o, .chunkTooBig) := by
  unfold chunkHdr
  rw [readN_exact _ _ _ _ (show (be32 n ++ k4).length = 8 by simp [be32_length, hk]),
    bind_ok]
  dsimp only
  rw [List.take_left' (be32_length _), beVal_be32 hn32, if_pos hn]
  rfl

theorem repackLoop_too_big (cfg : Codec) (level fuel : Nat) (n : Nat)
    (k4 rest o cb : Bytes) (hI : Bool)
    (hk : k4.length = 4) (hn : maxChunkLen < n) (hn32 : n < 2 ^ 32) :
    repackLoop cfg level (fuel + 1) ⟨(be32 n ++ k4) ++ rest, o, cb, hI⟩ =
      (o, some .chunkTooBig) := by
  simp only [repackLoop]
  rw [chunkHdr_too_big n k4 rest o cb hI hk hn hn32]

theorem repackLoop_second_idat (cfg : Codec) (level fuel : Nat) (n : Nat)
    (junk o cb : Bytes) (hn : n ≤ maxChunkLen) :
    repackLoop cfg level (fuel + 1) ⟨(be32 n ++ idatTag) ++ junk, o, cb, true⟩ =
      (o, some .wrongIDATOrder) := by
  simp only [repackLoop]
  rw [chunkHdr_raw n idatTag junk o cb true rfl hn]
  dsimp only
  rw [if_pos rfl]
  rfl

theorem repackLoop_corrupt (cfg : Codec) (level fuel : Nat) {c : Chunk}
    (rest o cb : Bytes) (hI : Bool)
    (hk4 : c.kind.length = 4) (hlen : c.data.length ≤ maxChunkLen)
    (hkind : c.kind ≠ idatTag) (hlt : c.crc < 2 ^ 32)
    (hbad : c.crc ≠ crc32 (c.kind ++ c.data)) :
    repackLoop cfg level (fuel + 1) ⟨chunkBytes c ++ rest, o, cb, hI⟩ =
      ((o ++ (be32 c.data.length ++ c.kind)) ++ c.data, some .invalidChecksum) := by
  simp only [repackLoop]
  rw [chunkHdr_cons rest o cb hI hk4 hlen]
  dsimp only
  rw [if_neg hkind, handleAnyChunk_corrupt rest o hI hlt hbad]

theorem header_missing (cfg : Codec) (level : Nat) (n : Nat) (k4 rest : Bytes)
    (hk : k4.length = 4) (hkind : k4 ≠ ihdrTag) (hn : n ≤ maxChunkLen) :
    repack cfg level (pngSigBytes ++ ((be32 n ++ k4) ++ rest)) =
      (pngSigBytes, some .missingIHDR) := by
  simp only [repack]
  unfold header
  rw [readN_exact _ _ _ _ (show pngSigBytes.length = 8 from rfl), bind_ok]
  dsimp only
  rw [if_neg (by simp)]
  rw [chunkHdr_raw n k4 rest _ _ false hk hn, bind_ok]
  dsimp only
  rw [if_pos hkind]
  rfl

theorem header_badlen (cfg : Codec) (level : Nat) (n : Nat) (rest : Bytes)
    (hn13 : n ≠ 13) (hn : n ≤ maxChunkLen) :
    repack cfg level (pngSigBytes ++ ((be32 n ++ ihdrTag) ++ rest)) =
      (pngSigBytes, some .badIHDRLen) := by
  simp only [repack]
  unfold header
  rw [readN_exact _ _ _ _ (show pngSigBytes.length = 8 from rfl), bind_ok]
  dsimp only
  rw [if_neg (by simp)]
  rw [chunkHdr_raw n ihdrTag rest _ _ false rfl hn, bind_ok]
  dsimp only
  rw [if_neg (by simp), if_pos hn13]
  rfl

theorem header_unsupported (cfg : Codec) (level : Nat) (d rest : Bytes)
    (hd : d.length = 13) (h10 : d.getD 10 0 ≠ 0) :
    repack cfg level (pngSigBytes ++ ((be32 13 ++ ihdrTag) ++ (d ++ rest))) =
      (pngSigBytes ++ (be32 13 ++ ihdrTag), some .unsupportedCompression) := by
  simp only [repack]
  unfold header
  rw [readN_exact _ _ _ _ (show pngSigBytes.length = 8 from rfl), bind_ok]
  dsimp only
  rw [if_neg (by simp)]
  rw [chunkHdr_raw 13 ihdrTag (d ++ rest) _ _ false rfl (by norm_num [maxChunkLen]),
    bind_ok]
  dsimp only
  rw [if_neg (by simp), if_neg (by simp)]
  rw [readN_exact _ _ _ _ hd, bind_ok]
  dsimp only
  rw [if_pos h10]
  rfl

/-! ## Merger-loop lemmas -/

theorem mergerLoop_nonzero (fuel : Nat) (st : MSt) (h : st.idatLength ≠ 0) :
    mergerLoop (fuel + 1) st = .ok (false, st) := by
  simp only [mergerLoop]
  rw [if_pos h]

theorem mergerLoop_enter_idat (fuel : Nat) (cb rest tmp : Bytes) (n : Nat)
    (hn32 : n < 2 ^ 32) :
    mergerLoop (fuel + 1) ⟨be32 (crc32 cb) ++ ((be32 n ++ idatTag) ++ rest), cb, 0, false, tmp⟩ =
      mergerLoop fuel ⟨rest, idatTag, n, false, be32 n ++ idatTag⟩ := by
  simp only [mergerLoop]
  rw [if_neg (by simp)]
  rw [if_neg (by simp only [List.length_append, be32_length]; omega)]
  dsimp only
  rw [List.take_left' (be32_length _), List.drop_left' (be32_length _),
    beVal_be32 (crc32_lt _)]
  rw [if_neg (by simp)]
  rw [if_neg (by
    simp only [List.length_append, be32_length, show (idatTag : Bytes).length = 4 from rfl]
    omega)]
  rw [List.take_left' (show (be32 n ++ idatTag).length = 8 by
      simp [be32_length, show (idatTag : Bytes).length = 4 from rfl]),
    List.drop_left' (show (be32 n ++ idatTag).length = 8 by
      simp [be32_length, show (idatTag : Bytes).length = 4 from rfl])]
  rw [List.take_left' (be32_length _), beVal_be32 hn32, List.drop_left' (be32_length _)]
  rw [if_neg (by simp)]

theorem repackerRead_too_big (k : Nat) (cb rest tmp : Bytes) (n : Nat)
    (hk : k ≠ 0) (hn : maxChunkLen < n) (hn32 : n < 2 ^ 32) :
    repackerRead k ⟨be32 (crc32 cb) ++ ((be32 n ++ idatTag) ++ rest), cb, 0, false, tmp⟩ =
      .error .idatTooBig := by
  unfold repackerRead
  rw [if_neg hk]
  rw [show (be32 (crc32 cb) ++ ((be32 n ++ idatTag) ++ rest) : Bytes).length + 1 =
      ((rest.length + 11) + 1) + 1 from by
    simp only [List.length_append, be32_length, show (idatTag : Bytes).length = 4 from rfl]
    omega]
  rw [mergerLoop_enter_idat ((rest.length + 11) + 1) cb rest tmp n hn32]
  rw [mergerLoop_nonzero (rest.length + 11) _ (by show n ≠ 0; omega)]
  dsimp only
  rw [if_pos hn]

/-! ## Claim theorems -/

set_option maxRecDepth 8000 in
/-- C1 (code bug evidence): on a minimal valid PNG, Repack succeeds, yet
the concatenated IDAT payloads of its output are only the sync-flushed
stream `flushStream level D`: the bytes the deferred zw.Close() produces
(the stream terminator, `closeTail`) were written into the discarded
local buffer after the last chunk had been packaged (pnglevel.go lines
196-244), so decompressing the output's image-data run fails even though
decompressing the input's run succeeds — and appending exactly the
dropped close tail makes it decode again.  Hence recompression is NOT
lossless with respect to decoded content as claim C1 states. -/
theorem c1_recompressed_stream_misses_close_tail :
    (repack exCodec 6 (pngBytes exPng)).2 = none ∧
    exCodec.inflate (idatPayloads (pngBytes exPng)) = some [7] ∧
    idatPayloads (repack exCodec 6 (pngBytes exPng)).1 = exCodec.flushStream 6 [7] ∧
    exCodec.inflate (idatPayloads (repack exCodec 6 (pngBytes exPng)).1) = none ∧
    exCodec.inflate (idatPayloads (repack exCodec 6 (pngBytes exPng)).1 ++
      exCodec.closeTail 6 [7]) = some [7] := by decide

/-- C2: for every valid PNG input, the output of Repack is exactly the
identical 8-byte signature, the identical IHDR chunk bytes, every
non-image-data chunk byte-for-byte identical and in the same relative
order (the pre-run chunks, then the re-encoded image-data run, then the
trailer chunks), with a nil error. -/
theorem c2_container_preserved (cfg : Codec) (level : Nat) (f : PngFile)
    (h : ValidPng cfg f) :
    repack cfg level (pngBytes f) =
      (pngSigBytes ++ chunkBytes f.ihdr ++ chunksBytes f.pre ++
        idatEmitAll cfg level ((cfg.inflate (runData f)).getD []) ++ chunksBytes f.post,
       none) :=
  repack_valid cfg level f h

set_option maxRecDepth 8000 in
/-- Witness for C2 at the concrete file `exPng` and codec `exCodec`. -/
theorem c2_container_preserved_witness :
    ValidPng exCodec exPng ∧
    repack exCodec 6 (pngBytes exPng) =
      (pngSigBytes ++ chunkBytes exPng.ihdr ++ chunksBytes exPng.pre ++
        idatEmitAll exCodec 6 ((exCodec.inflate (runData exPng)).getD []) ++
        chunksBytes exPng.post, none) :=
  ⟨by decide, c2_container_preserved exCodec 6 exPng (by decide)⟩

/-- C3 (code bug evidence): the resumption branch of repack (lines 80-88)
uses the trailer chunk header captured in p.tmp — but on this path the
crc hash was neither Reset nor fed the trailer's own type tag
(repacker.Read lines 262-264 return before lines 266-267), so it still
holds the "IDAT" tag and payload of the final image-data chunk.  The
subsequent handleAnyChunk therefore compares the trailer's stored CRC
against a checksum over the stale IDAT bytes plus the trailer payload,
and rejects even a perfectly well-formed trailer chunk (here: a correct
empty IEND chunk, with the merger state after a final IDAT chunk whose
data was [5]).  The claim's "its CRC is validated correctly" fails; the
pull-based variant (src/unnamed/part_000, idatReader.Read lines 311-312)
resets and seeds the hash before signalling, as the claim describes. -/
theorem c3_resume_rejects_valid_trailer :
    chunkOk (mkChunk iendTag []) ∧
    resumeAfterIDAT (be32 0 ++ iendTag)
        ⟨be32 (crc32 iendTag), [9, 9], idatTag ++ [5], false⟩ =
      .error ([9, 9, 0, 0, 0, 0, 0x49, 0x45, 0x4E, 0x44], .invalidChecksum) := by decide

/-- C4: the image-data chunks emitted by the re-chunker form a parseable
sequence of wire-format chunks (4-byte big-endian length, tag, data,
4-byte big-endian CRC), every one tagged IDAT, and recomputing each
chunk's CRC over its own type+data yields exactly the stored CRC field.
The hypothesis bounds the flushed stream by the u32 length field's range
(always true of real zlib output). -/
theorem c4_emitted_idat_wellformed (cfg : Codec) (level : Nat) (d : Bytes)
    (hb : ∀ u : Bytes, u.length ≤ d.length → (cfg.flushStream level u).length < 2 ^ 32) :
    ∃ cs, parseChunks (idatEmitAll cfg level d) = some cs ∧
      ∀ c ∈ cs, c.kind = idatTag ∧ c.crc = crc32 (c.kind ++ c.data) :=
  ⟨emitChunksL cfg level (chunksOf d) [] 0, parse_emitAll cfg level d hb,
    emitChunksL_form cfg level (chunksOf d) [] 0⟩

/-- Witness for C4 at the concrete codec and decoded content [7]. -/
theorem c4_emitted_idat_wellformed_witness :
    ∃ cs, parseChunks (idatEmitAll exCodec 6 [7]) = some cs ∧
      ∀ c ∈ cs, c.kind = idatTag ∧ c.crc = crc32 (c.kind ++ c.data) :=
  c4_emitted_idat_wellformed exCodec 6 [7]
    (fun u hu => lt_of_le_of_lt hu (by norm_num))

set_option maxRecDepth 8000 in
/-- C5 (counterexample): corrupting one payload byte of a pass-through
chunk (stored CRC left as the CRC of the original payload) makes Repack
abort with the checksum error — but the corrupt chunk's 8 header bytes
and full payload are already in the output, because handleAnyChunk
writes them before reading and checking the trailing CRC.  This refutes
"no byte of a pass-through chunk is emitted before that chunk's trailing
CRC has been read and verified". -/
theorem c5_counterexample_payload_emitted_before_crc :
    repack exCodec 6 exBadInput =
      ((((pngSigBytes ++ chunkBytes (mkChunk ihdrTag exIhdrData)) ++
          (be32 3 ++ exTextTag)) ++ [1, 2, 3]),
       some .invalidChecksum) ∧
    (repack exCodec 6 exBadInput).1 ≠
      pngSigBytes ++ chunkBytes (mkChunk ihdrTag exIhdrData) := by decide

/-- C5 (amended): the walker streams a pass-through chunk's header and
payload to the output before reading its CRC field, but it withholds the
4-byte CRC field itself until verification; on a mismatch the operation
aborts immediately — the CRC field and every later chunk are not
emitted, and the error is surfaced. -/
theorem c5_amended_crc_field_withheld (cfg : Codec) (level : Nat) (ihdr c : Chunk)
    (pre : List Chunk) (rest : Bytes)
    (hk : ihdr.kind = ihdrTag) (hlen13 : ihdr.data.length = 13)
    (h10 : ihdr.data.getD 10 0 = 0) (hcrc : ihdr.crc = crc32 (ihdrTag ++ ihdr.data))
    (hpre : ∀ x ∈ pre, chunkOk x ∧ x.kind ≠ idatTag)
    (hk4 : c.kind.length = 4) (hclen : c.data.length ≤ maxChunkLen)
    (hkind : c.kind ≠ idatTag) (hlt : c.crc < 2 ^ 32)
    (hbad : c.crc ≠ crc32 (c.kind ++ c.data)) :
    repack cfg level (pngSigBytes ++ (chunkBytes ihdr ++
        (chunksBytes pre ++ (chunkBytes c ++ rest)))) =
      ((((pngSigBytes ++ chunkBytes ihdr) ++ chunksBytes pre) ++
        (be32 c.data.length ++ c.kind)) ++ c.data,
       some .invalidChecksum) := by
  simp only [repack]
  rw [header_ok _ hk hlen13 h10 hcrc]
  dsimp only
  have hge : pre.length ≤ (chunksBytes pre ++ (chunkBytes c ++ rest)).length := by
    have h1 := chunksBytes_length_ge pre (fun x hx => (hpre x hx).1.1)
    simp only [List.length_append]
    omega
  obtain ⟨k, hk2⟩ := Nat.exists_eq_add_of_le hge
  rw [show (chunksBytes pre ++ (chunkBytes c ++ rest)).length + 1 =
      pre.length + (k + 1) from by omega]
  rw [repackLoop_chunks cfg level pre _ _ _ false _ hpre]
  rw [repackLoop_corrupt cfg level k _ _ _ false hk4 hclen hkind hlt hbad]

set_option maxRecDepth 8000 in
/-- Witness for the amended C5 at the concrete corrupted input. -/
theorem c5_amended_crc_field_withheld_witness :
    repack exCodec 6 (pngSigBytes ++ (chunkBytes (mkChunk ihdrTag exIhdrData) ++
        (chunksBytes [] ++ (chunkBytes exBadChunk ++ chunkBytes (mkChunk iendTag []))))) =
      ((((pngSigBytes ++ chunkBytes (mkChunk ihdrTag exIhdrData)) ++ chunksBytes []) ++
        (be32 (exBadChunk.data.length) ++ exBadChunk.kind)) ++ exBadChunk.data,
       some .invalidChecksum) :=
  c5_amended_crc_field_withheld exCodec 6 (mkChunk ihdrTag exIhdrData) exBadChunk []
    (chunkBytes (mkChunk iendTag [])) rfl (by decide) (by decide) (by decide)
    (fun x hx => absurd hx (by simp)) (by decide) (by decide) (by decide) (by decide)
    (by decide)

/-- C6: the 32-bit container checksum accumulator is reset at every chunk
boundary — the walker's behaviour is identical for any two accumulator
contents on entry, so no residual checksum state carries from one chunk's
validation into the next — and the stream-level accumulator used to emit
re-encoded image-data chunks is distinct and independently reset: every
emitted chunk's CRC field is the checksum of the tag and exactly its own
payload, regardless of container state. -/
theorem c6_checksum_accumulators_reset (cfg : Codec) (level : Nat) :
    (∀ fuel inp o cb cb' hI,
      repackLoop cfg level fuel ⟨inp, o, cb, hI⟩ =
        repackLoop cfg level fuel ⟨inp, o, cb', hI⟩) ∧
    (∀ d cs, (∀ u : Bytes, u.length ≤ d.length →
        (cfg.flushStream level u).length < 2 ^ 32) →
      parseChunks (idatEmitAll cfg level d) = some cs →
      ∀ c ∈ cs, c.crc = crc32 (c.kind ++ c.data)) := by
  constructor
  · exact fun fuel inp o cb cb' hI => repackLoop_crcBuf_indep cfg level fuel inp o cb cb' hI
  · intro d cs hb hp
    rw [parse_emitAll cfg level d hb] at hp
    have hcs := Option.some.inj hp
    subst hcs
    exact fun c hc => (emitChunksL_form cfg level (chunksOf d) [] 0 c hc).2

set_option maxRecDepth 8000 in
/-- Witness for C6: concrete states differing only in the accumulator,
and a concrete emitted run whose chunks all carry their own CRC. -/
theorem c6_checksum_accumulators_reset_witness :
    repackLoop exCodec 6 3 ⟨[1, 2], [3], [4], false⟩ =
      repackLoop exCodec 6 3 ⟨[1, 2], [3], [9], false⟩ ∧
    ∀ c ∈ emitChunksL exCodec 6 (chunksOf [7]) [] 0,
      c.crc = crc32 (c.kind ++ c.data) :=
  ⟨(c6_checksum_accumulators_reset exCodec 6).1 3 [1, 2] [3] [4] [9] false,
   (c6_checksum_accumulators_reset exCodec 6).2 [7] _
     (fun u hu => lt_of_le_of_lt hu (by norm_num)) (by decide)⟩

/-- C7: an input that appends a further IDAT chunk header after a valid
container whose image-data run was already processed and followed by at
least one non-image chunk fails with the ordering error, and the output
contains everything up to and including the trailer chunks but not one
byte of the offending IDAT chunk. -/
theorem c7_second_run_rejected (cfg : Codec) (level : Nat) (f : PngFile) (n : Nat)
    (junk : Bytes) (h : ValidPng cfg f) (hpost : f.post ≠ []) (hn : n ≤ maxChunkLen) :
    repack cfg level (pngBytes f ++ ((be32 n ++ idatTag) ++ junk)) =
      (pngSigBytes ++ chunkBytes f.ihdr ++ chunksBytes f.pre ++
        idatEmitAll cfg level ((cfg.inflate (runData f)).getD []) ++ chunksBytes f.post,
       some .wrongIDATOrder) := by
  obtain ⟨hk, hlen, h10, hcrc, hpre, hrun, hpostOk, hne, hlast, hinf⟩ := h
  obtain ⟨d, hd⟩ := Option.isSome_iff_exists.mp hinf
  have heq : pngBytes f ++ ((be32 n ++ idatTag) ++ junk) = pngSigBytes ++
      (chunkBytes f.ihdr ++ (chunksBytes f.pre ++ (chunksBytes f.run ++
        (chunksBytes f.post ++ ((be32 n ++ idatTag) ++ junk))))) := by
    simp [pngBytes, List.append_assoc]
  simp only [repack, heq]
  rw [header_ok _ hk hlen h10 hcrc]
  dsimp only
  cases hr : f.run with
  | nil => exact absurd hr hne
  | cons c cs =>
    have hc := hrun c (by rw [hr]; simp)
    have hcs : ∀ x ∈ cs, chunkOk x ∧ x.kind = idatTag :=
      fun x hx => hrun x (by rw [hr]; exact List.mem_cons_of_mem c hx)
    have hinf' : cfg.inflate (runDataL (c :: cs)) = some d := by rw [← hr]; exact hd
    have hrest : ¬ (8 ≤ (chunksBytes f.post ++ ((be32 n ++ idatTag) ++ junk)).length ∧
        ((chunksBytes f.post ++ ((be32 n ++ idatTag) ++ junk)).take 8).drop 4 = idatTag) :=
      peek_not_idat _ (fun x hx => ⟨(hpostOk x hx).1, (hpostOk x hx).2⟩)
        (fun hnil => absurd hnil hpost)
    have hge : f.pre.length + f.post.length + 1 ≤
        (chunksBytes f.pre ++ (chunksBytes (c :: cs) ++
          (chunksBytes f.post ++ ((be32 n ++ idatTag) ++ junk)))).length := by
      have h1 := chunksBytes_length_ge f.pre (fun x hx => (hpre x hx).1.1)
      have h2 := chunksBytes_length_ge f.post (fun x hx => (hpostOk x hx).1.1)
      have h4 := chunkBytes_length c hc.1.1
      have h5 : chunksBytes (c :: cs) = chunkBytes c ++ chunksBytes cs := by
        simp [chunksBytes]
      have h3 : 1 ≤ (chunksBytes (c :: cs)).length := by
        rw [h5]; simp only [List.length_append, h4]; omega
      simp only [List.length_append]
      omega
    obtain ⟨k, hk2⟩ := Nat.exists_eq_add_of_le hge
    rw [show (chunksBytes f.pre ++ (chunksBytes (c :: cs) ++
        (chunksBytes f.post ++ ((be32 n ++ idatTag) ++ junk)))).length + 1 =
        f.pre.length + ((f.post.length + (k + 1)) + 1) from by omega]
    rw [repackLoop_chunks cfg level f.pre _ _ _ false _ hpre]
    rw [repackLoop_step_idat cfg level c cs
      (chunksBytes f.post ++ ((be32 n ++ idatTag) ++ junk)) _ _ _ d hc hcs hrest hinf']
    rw [repackLoop_chunks cfg level f.post _ _ _ true _ hpostOk]
    rw [repackLoop_second_idat cfg level k n junk _ _ hn]
    have hgd : (cfg.inflate (runData f)).getD [] = d := by rw [hd]; rfl
    rw [hgd]

set_option maxRecDepth 8000 in
/-- Witness for C7: exPng followed by a second IDAT header. -/
theorem c7_second_run_rejected_witness :
    ValidPng exCodec exPng ∧
    repack exCodec 6 (pngBytes exPng ++ ((be32 0 ++ idatTag) ++ [])) =
      (pngSigBytes ++ chunkBytes exPng.ihdr ++ chunksBytes exPng.pre ++
        idatEmitAll exCodec 6 ((exCodec.inflate (runData exPng)).getD []) ++
        chunksBytes exPng.post, some .wrongIDATOrder) :=
  ⟨by decide, c7_second_run_rejected exCodec 6 exPng 0 [] (by decide) (by decide)
    (by decide)⟩

set_option maxRecDepth 8000 in
/-- C8 (counterexample): the walker checks the declared length bound
before the IHDR type and length checks (chunk(), pnglevel.go lines
142-145), so a first chunk declaring length 2^31 with the IHDR tag fails
with the chunk-too-large error, not the bad-header-length error the
claim requires. -/
theorem c8_counterexample_oversized_preempts :
    repack exCodec 6 (pngSigBytes ++ ((be32 (2 ^ 31) ++ ihdrTag) ++ [])) =
      (pngSigBytes, some .chunkTooBig) ∧
    Err.chunkTooBig ≠ Err.badIHDRLen := by decide

/-- C8 (amended): provided the first chunk's declared length is within
the 2^31-1 bound (otherwise the chunk-too-large error preempts), header
validation fails with the specific error for each violation, in order: a
non-IHDR first chunk fails as missing header; an IHDR whose length is
not 13 fails as bad header length; an IHDR payload whose byte at offset
10 is non-zero fails as unsupported compression method, immediately after
the payload is read — before the CRC is checked and before any
image-data processing (the output holds only the signature, and for the
third case the 8 IHDR header bytes, when the error surfaces). -/
theorem c8_amended_header_errors (cfg : Codec) (level : Nat) :
    (∀ n k4 rest, k4.length = 4 → k4 ≠ ihdrTag → n ≤ maxChunkLen →
      repack cfg level (pngSigBytes ++ ((be32 n ++ k4) ++ rest)) =
        (pngSigBytes, some .missingIHDR)) ∧
    (∀ n rest, n ≠ 13 → n ≤ maxChunkLen →
      repack cfg level (pngSigBytes ++ ((be32 n ++ ihdrTag) ++ rest)) =
        (pngSigBytes, some .badIHDRLen)) ∧
    (∀ d rest, d.length = 13 → d.getD 10 0 ≠ 0 →
      repack cfg level (pngSigBytes ++ ((be32 13 ++ ihdrTag) ++ (d ++ rest))) =
        (pngSigBytes ++ (be32 13 ++ ihdrTag), some .unsupportedCompression)) :=
  ⟨fun n k4 rest hk hkind hn => header_missing cfg level n k4 rest hk hkind hn,
   fun n rest hn13 hn => header_badlen cfg level n rest hn13 hn,
   fun d rest hd h10 => header_unsupported cfg level d rest hd h10⟩

/-- Witness for the amended C8 at three concrete malformed headers. -/
theorem c8_amended_header_errors_witness :
    repack exCodec 6 (pngSigBytes ++ ((be32 0 ++ iendTag) ++ [])) =
      (pngSigBytes, some .missingIHDR) ∧
    repack exCodec 6 (pngSigBytes ++ ((be32 0 ++ ihdrTag) ++ [])) =
      (pngSigBytes, some .badIHDRLen) ∧
    repack exCodec 6 (pngSigBytes ++ ((be32 13 ++ ihdrTag) ++
        ([0, 0, 0, 1, 0, 0, 0, 1, 8, 0, 1, 0, 0] ++ []))) =
      (pngSigBytes ++ (be32 13 ++ ihdrTag), some .unsupportedCompression) :=
  ⟨(c8_amended_header_errors exCodec 6).1 0 iendTag [] rfl (by decide) (by decide),
   (c8_amended_header_errors exCodec 6).2.1 0 [] (by decide) (by decide),
   (c8_amended_header_errors exCodec 6).2.2 [0, 0, 0, 1, 0, 0, 0, 1, 8, 0, 1, 0, 0] []
     rfl (by decide)⟩

/-- C9: a chunk header declaring a length above 2^31-1 is fatal wherever
it is read: the container walker's chunk() aborts with "chunk is too
big", and the image-stream merger's Read aborts with "IDAT chunk is too
big" when the in-run chunk it just switched to is oversized. -/
theorem c9_oversized_chunk_rejected (cfg : Codec) (level : Nat) :
    (∀ fuel n k4 rest o cb hI, k4.length = 4 → maxChunkLen < n → n < 2 ^ 32 →
      repackLoop cfg level (fuel + 1) ⟨(be32 n ++ k4) ++ rest, o, cb, hI⟩ =
        (o, some .chunkTooBig)) ∧
    (∀ k cb rest tmp n, k ≠ 0 → maxChunkLen < n → n < 2 ^ 32 →
      repackerRead k ⟨be32 (crc32 cb) ++ ((be32 n ++ idatTag) ++ rest),
          cb, 0, false, tmp⟩ =
        .error .idatTooBig) :=
  ⟨fun fuel n k4 rest o cb hI hk hn hn32 =>
     repackLoop_too_big cfg level fuel n k4 rest o cb hI hk hn hn32,
   fun k cb rest tmp n hk hn hn32 =>
     repackerRead_too_big k cb rest tmp n hk hn hn32⟩

/-- Witness for C9 at concrete oversized headers. -/
theorem c9_oversized_chunk_rejected_witness :
    repackLoop exCodec 6 1 ⟨(be32 (2 ^ 31) ++ iendTag) ++ [], [], [], false⟩ =
      ([], some .chunkTooBig) ∧
    repackerRead 1 ⟨be32 (crc32 []) ++ ((be32 (2 ^ 31) ++ idatTag) ++ []),
        [], 0, false, []⟩ = .error .idatTooBig :=
  ⟨(c9_oversized_chunk_rejected exCodec 6).1 0 (2 ^ 31) iendTag [] [] [] false rfl
     (by decide) (by decide),
   (c9_oversized_chunk_rejected exCodec 6).2 1 [] [] [] (2 ^ 31) (by decide)
     (by decide) (by decide)⟩

/-- C10: repacker.Read with a zero-length destination buffer returns zero
bytes and no error immediately, consuming nothing from the source and
leaving the remaining chunk length, the checksum accumulator, the
haveLastChunk flag and the captured header bytes all unchanged. -/
theorem c10_zero_length_read_noop (st : MSt) :
    repackerRead 0 st = .ok ([], false, st) := rfl

end Pnglevel